import Mathlib

/-!
# Verification of the tecs/trecs fetch-resolution and system-scheduling core

A shallow embedding of the fetch-resolution algorithm of
`tecs/src/traits/fetch.rs` (the `WorldFetch` trait: `contain` producing a
`MappingTable` plan, `build` producing views from a component row) and of the
system lifecycle of `trecs/src/system/mod.rs` (`System::new`, `System::run_once`
in both the normal and the `async` configuration), together with the Alias
Tracker contract of the spec.

Rust `TypeId`s are modelled as natural numbers (a process-wide, totally ordered
identity per component type).  The macro-generated tuple implementations
(`impl_fetch`, `impl_fnsystem`, `impl_async_fnsystem`, expanded mechanically for
arities 1..16) are modelled once, variadically, by a list of children.
-/

namespace Tecs

/-- Access mode of a requested reference: `&'static T` versus `&'static mut T`. -/
inductive Mode where
  | read : Mode
  | write : Mode
deriving DecidableEq, Repr

mutual
/-- A requested bundle shape (the type-level `WorldFetch` implementor):
a leaf `&'static T` / `&'static mut T` identified by the component's `TypeId`,
or a tuple of shapes (the `impl_fetch` macro instances). -/
inductive Shape where
  | read : Nat → Shape
  | write : Nat → Shape
  | node : ShapeList → Shape

/-- The element list of a tuple shape. -/
inductive ShapeList where
  | nil : ShapeList
  | cons : Shape → ShapeList → ShapeList
end

/-- `MappingTable` from `fetch.rs`: the resolution plan.  An internal `Node`
holds one child table per tuple element; a `Mapping` leaf holds a slot index. -/
inductive MappingTable where
  | Node : List MappingTable → MappingTable
  | Mapping : Nat → MappingTable

/-- `MappingTable::as_node`. -/
def MappingTable.as_node : MappingTable → Option (List MappingTable)
  | .Node v => some v
  | _ => none

/-- `MappingTable::as_mapping`. -/
def MappingTable.as_mapping : MappingTable → Option Nat
  | .Mapping v => some v
  | _ => none

/-- The loop body of `slice::binary_search` on a `Vec<TypeId>`: search the
half-open window `[lo, hi)`; `fuel` only bounds the number of iterations (the
window shrinks strictly each round, so `ids.length + 1` iterations always
suffice). -/
def binarySearchGo (ids : List Nat) (t : Nat) : Nat → Nat → Nat → Option Nat
  | 0, _, _ => none
  | fuel + 1, lo, hi =>
    if lo < hi then
      if ids.getD ((lo + hi) / 2) 0 < t then
        binarySearchGo ids t fuel ((lo + hi) / 2 + 1) hi
      else if t < ids.getD ((lo + hi) / 2) 0 then
        binarySearchGo ids t fuel lo ((lo + hi) / 2)
      else some ((lo + hi) / 2)
    else none

/-- `components_ids.binary_search(&TypeId::of::<T>()).ok()`: `some i` when the
identity `t` is found at index `i` of the (sorted) vector, else `none`. -/
def binarySearch (ids : List Nat) (t : Nat) : Option Nat :=
  binarySearchGo ids t (ids.length + 1) 0 ids.length

mutual
/-- `WorldFetch::contain` of `fetch.rs`.  The `components_ids` vector is
mutable in the source, so the model returns the plan (if any) together with
the final state of the vector: a found leaf identity is removed
(`Vec::remove`, i.e. `List.eraseIdx`, shifting later elements down) even when
a later sibling subsequently fails.  The `&'static T` and `&'static mut T`
leaf cases are the two verbatim-identical impls of the source. -/
def contain : Shape → List Nat → Option MappingTable × List Nat
  | .read t, components_ids =>
    match binarySearch components_ids t with
    | some mapping => (some (.Mapping mapping), components_ids.eraseIdx mapping)
    | none => (none, components_ids)
  | .write t, components_ids =>
    match binarySearch components_ids t with
    | some mapping => (some (.Mapping mapping), components_ids.eraseIdx mapping)
    | none => (none, components_ids)
  | .node cs, components_ids =>
    match containList cs components_ids with
    | (some ms, rest) => (some (.Node ms), rest)
    | (none, rest) => (none, rest)

/-- The tuple body of `impl_fetch`: `mappings.push($t::contain(components_ids)?)`
for each element in declared order — the `?` aborts at the first failing child,
leaving the vector as mutated so far. -/
def containList : ShapeList → List Nat → Option (List MappingTable) × List Nat
  | .nil, components_ids => (some [], components_ids)
  | .cons c cs, components_ids =>
    match contain c components_ids with
    | (some m, rest) =>
      match containList cs rest with
      | (some ms, rest') => (some (m :: ms), rest')
      | (none, rest') => (none, rest')
    | (none, rest) => (none, rest)
end

/-- Modelled from the spec: one type-erased boxed component value
(`Box<dyn Any>` inside `Components`, whose definition in `bundle.rs` is not
part of the excerpted sources): the value's type identity together with its
payload.  `downcast_ref::<T>` succeeds exactly when the stored identity is
`T`'s. -/
structure Erased where
  ty : Nat
  val : Nat
deriving DecidableEq, Repr

/-- Modelled from the spec: `Components` — an "ordered sequence of type-erased
boxed values, index parallel to a sorted sequence of their type identities"
(spec §3); `components[i]` is plain positional indexing. -/
abbrev Components := List Erased

/-- The sorted type-identity index of a row, the list a caller copies into
`contain`'s `components_ids` argument. -/
def componentsIds (components : Components) : List Nat :=
  components.map Erased.ty

/-- `Box<dyn Any>::downcast_ref::<T>`: the payload when the stored type is `t`. -/
def downcast_ref (t : Nat) (e : Erased) : Option Nat :=
  if e.ty = t then some e.val else none

/-- A built view tree (`WorldFetch::Item`): a shared or exclusive borrow of one
erased value, or a tuple of views. -/
inductive View where
  | ref : Erased → View
  | mutRef : Erased → View
  | tuple : List View → View

mutual
/-- `WorldFetch::build` of `fetch.rs`.  `none` models an `unwrap` panic (a
non-`Mapping` table, an out-of-bounds slot, or a failed downcast).  The
`&'static mut T` case downcasts exactly like the shared case and then
transmutes the shared borrow to a mutable one. -/
def build : Shape → Components → MappingTable → Option View
  | .read t, components, mapping_table => do
    let i ← mapping_table.as_mapping
    let e ← components[i]?
    let _ ← downcast_ref t e
    pure (.ref e)
  | .write t, components, mapping_table => do
    let i ← mapping_table.as_mapping
    let e ← components[i]?
    let _ ← downcast_ref t e
    pure (.mutRef e)
  | .node cs, components, mapping_table => do
    let ms ← mapping_table.as_node
    let vs ← buildList cs components ms
    pure (.tuple vs)

/-- The tuple body of `impl_fetch`'s `build`: one `mappings.next().unwrap()`
per element in declared order (`none` when the node has too few children). -/
def buildList : ShapeList → Components → List MappingTable → Option (List View)
  | .nil, _, _ => some []
  | .cons c cs, components, ms =>
    match ms with
    | [] => none
    | m :: ms' => do
      let v ← build c components m
      let vs ← buildList cs components ms'
      pure (v :: vs)
end

mutual
/-- The requested leaf type identities of a shape, in declared order. -/
def leaves : Shape → List Nat
  | .read t => [t]
  | .write t => [t]
  | .node cs => leavesList cs

/-- Leaves of a tuple's elements, concatenated in declared order. -/
def leavesList : ShapeList → List Nat
  | .nil => []
  | .cons c cs => leaves c ++ leavesList cs
end

mutual
/-- The plan tree is isomorphic to the shape: a `Mapping` leaf per requested
leaf, and a `Node` with exactly one child table per tuple element, in order. -/
def planIso : Shape → MappingTable → Bool
  | .read _, .Mapping _ => true
  | .write _, .Mapping _ => true
  | .node cs, .Node ms => planIsoList cs ms
  | _, _ => false

/-- Pointwise isomorphism of a tuple's elements and a node's children. -/
def planIsoList : ShapeList → List MappingTable → Bool
  | .nil, [] => true
  | .cons c cs, m :: ms => planIso c m && planIsoList cs ms
  | _, _ => false
end

mutual
/-- Two shapes with the same tree skeleton and the same leaf type identities,
with the access mode of any leaf allowed to differ. -/
def sameSkeleton : Shape → Shape → Bool
  | .read t, .read u => t == u
  | .read t, .write u => t == u
  | .write t, .read u => t == u
  | .write t, .write u => t == u
  | .node cs, .node ds => sameSkeletonList cs ds
  | _, _ => false

/-- Pointwise `sameSkeleton` on tuple elements. -/
def sameSkeletonList : ShapeList → ShapeList → Bool
  | .nil, .nil => true
  | .cons c cs, .cons d ds => sameSkeleton c d && sameSkeletonList cs ds
  | _, _ => false
end

mutual
/-- Each leaf view's underlying value has exactly the type identity the
corresponding shape leaf requested, with the matching borrow flavour, and the
tuple structure mirrors the shape. -/
def viewMatches : Shape → View → Bool
  | .read t, .ref e => e.ty == t
  | .write t, .mutRef e => e.ty == t
  | .node cs, .tuple vs => viewMatchesList cs vs
  | _, _ => false

/-- Pointwise `viewMatches` on tuple elements. -/
def viewMatchesList : ShapeList → List View → Bool
  | .nil, [] => true
  | .cons c cs, v :: vs => viewMatches c v && viewMatchesList cs vs
  | _, _ => false
end

/-- Iterated `Vec::remove`-by-value: the state of a working identity set after
each identity of `L` has been matched and removed once, in order. -/
def eraseAll (R L : List Nat) : List Nat :=
  L.foldl (fun acc t => acc.erase t) R

end Tecs

namespace Trecs

open Tecs (Mode)

/-- An Access Record (spec §3): a (type identity, mode) pair contributed to
the Alias Tracker by a system parameter for one requested component type. -/
abbrev AccessRecord := Nat × Mode

/-- Modelled from the spec: `SystemState` of `trecs/src/system/state.rs` (not
among the excerpted sources) — its `alias_map` is the "mapping-set" of Access
Records accumulated so far in one validation scope (only membership queries
are made of it). -/
structure SystemState where
  alias_map : List AccessRecord

/-- Modelled from the spec: recording one Access Record into the tracker
(the per-leaf work of `WorldFetch::alias_conflict`, whose source is not
excerpted).  Conflict rule (spec §4.3): at most one Write record per type
identity, and a type identity with a Write record may have no other record —
so a Write conflicts with any existing record of its type, and a Read
conflicts with an existing Write of its type.  `none` models the conflict
panic that aborts registration. -/
def record (t : Nat) (m : Mode) (st : SystemState) : Option SystemState :=
  match m with
  | .write =>
    if ∃ x ∈ st.alias_map, x.1 = t then none
    else some ⟨st.alias_map ++ [(t, .write)]⟩
  | .read =>
    if (t, Mode.write) ∈ st.alias_map then none
    else some ⟨st.alias_map ++ [(t, .read)]⟩

/-- Sequentially record a list of Access Records into a tracker state,
aborting at the first conflict. -/
def runValidation (ps : List AccessRecord) (st : SystemState) : Option SystemState :=
  match ps with
  | [] => some st
  | (t, m) :: rest =>
    match record t m st with
    | some st' => runValidation rest st'
    | none => none

/-- `InnerSystem::init` (`system/mod.rs`): `let mut state = SystemState::new();`
then each parameter contributes its Access Records to the fresh scope. -/
def innerInit (ps : List AccessRecord) : Option SystemState :=
  runValidation ps ⟨[]⟩

/-- Whether a parameter list passes Alias Tracker validation. -/
def validateRecords (ps : List AccessRecord) : Bool :=
  (innerInit ps).isSome

/-- Observable events of the system lifecycle model. -/
inductive Ev where
  | contribute : Nat → Mode → Ev
  | buildArgs : Ev
  | invoke : Ev

/-- Is this event an Alias Tracker contribution (validation work)? -/
def isContributeEv : Ev → Bool
  | .contribute _ _ => true
  | _ => false

/-- Is this event an invocation of the user callable? -/
def isInvokeEv : Ev → Bool
  | .invoke => true
  | _ => false

/-- The events emitted while `InnerSystem::init` runs: each record's
contribution starts in declared order; a conflict panic stops the sequence. -/
def runValidationTrace (ps : List AccessRecord) (st : SystemState) : List Ev :=
  match ps with
  | [] => []
  | (t, m) :: rest =>
    .contribute t m ::
      (match record t m st with
      | some st' => runValidationTrace rest st'
      | none => [])

/-- A registered function system: the Access Records of its parameter list
(its callable is opaque to the lifecycle model). -/
structure SystemVal where
  params : List AccessRecord

/-- `System::new` (`system/mod.rs` lines 141-151): runs `fn_system.init()` and
only then boxes the callable into a `System`.  The result is the trace of
events that occurred together with the constructed `System`, `none` when the
init panic (alias conflict) aborted construction. -/
def systemNew (ps : List AccessRecord) : List Ev × Option SystemVal :=
  (runValidationTrace ps ⟨[]⟩, if validateRecords ps then some ⟨ps⟩ else none)

/-- `System::run_once` (normal mode, `system/mod.rs` lines 153-157):
`inner.run_once(inner.build_args(world))` — arguments are assembled from the
world, then the callable is invoked; no validation work happens here. -/
def systemRunOnce (_s : SystemVal) : List Ev :=
  [.buildArgs, .invoke]

/-- `n` consecutive scheduler invocations of a registered system. -/
def runTimes (s : SystemVal) : Nat → List Ev
  | 0 => []
  | n + 1 => systemRunOnce s ++ runTimes s n

/-- Register a system and let the scheduler run it `n` times: a system whose
registration aborted is never run. -/
def registerAndRun (ps : List AccessRecord) (n : Nat) : List Ev :=
  match systemNew ps with
  | (tr, some s) => tr ++ runTimes s n
  | (tr, none) => tr

/-- The claimed validation condition of C3, read over the multiset of
accumulated records: every type identity has at most one record, or exactly
one record which is of mode Write.  (Quantification is over the types that
occur; absent types hold trivially.) -/
abbrev claimedAliasCond (ps : List AccessRecord) : Prop :=
  ∀ t ∈ ps.map Prod.fst,
    (ps.filter (fun r => r.1 == t)).length ≤ 1 ∨
      ((ps.filter (fun r => r.1 == t && r.2 == Mode.write)).length = 1 ∧
        (ps.filter (fun r => r.1 == t)).length = 1)

/-- The conflict rule of spec §4.3 as a predicate over the accumulated
records: a type identity with a Write record has no other record (Read or
Write) of that type; types with only Read records always validate. -/
abbrev writeExclusiveCond (ps : List AccessRecord) : Prop :=
  ∀ t ∈ ps.map Prod.fst,
    (ps.filter (fun r => r.1 == t && r.2 == Mode.write)).length = 0 ∨
      (ps.filter (fun r => r.1 == t)).length = 1

/-- An `async`-mode function system of a given parameter-list arity: its
callable returns a future, modelled by the event list the future emits when
driven to completion. -/
structure AsyncSys where
  arity : Nat
  fut : List Ev

/-- `InnerSystem::run_once` in the `async` configuration: the
`impl_async_fnsystem` macro instances (arity 1..16, `system/mod.rs` lines
102-108) call the callable, drop the returned future on the spot, and return
`None`; only the hand-written zero-arity impl (lines 125-127) returns
`Some(Box::pin((self)()))`. -/
def asyncInnerRunOnce (s : AsyncSys) : Option (List Ev) :=
  match s.arity with
  | 0 => some s.fut
  | _ + 1 => none

/-- `System::run_once` in the `async` configuration (`system/mod.rs` lines
158-162): `inner.run_once(inner.build_args(world)).unwrap().await` — `none`
models the `unwrap` panic on a `None` unit; on success the trace shows the
arguments built and then the deferred unit driven to completion before the
call returns. -/
def asyncSystemRunOnce (s : AsyncSys) : Option (List Ev) :=
  match asyncInnerRunOnce s with
  | some fut => some (Ev.buildArgs :: fut)
  | none => none

end Trecs

namespace Tecs

theorem sorted_getD_lt {ids : List Nat} (hs : List.Sorted (· < ·) ids)
    {i j : Nat} (hij : i < j) (hj : j < ids.length) :
    ids.getD i 0 < ids.getD j 0 := by
  have hi : i < ids.length := Nat.lt_trans hij hj
  rw [List.getD_eq_getElem _ _ hi, List.getD_eq_getElem _ _ hj]
  exact List.pairwise_iff_get.mp hs ⟨i, hi⟩ ⟨j, hj⟩ hij

theorem sorted_getD_inj {ids : List Nat} (hs : List.Sorted (· < ·) ids)
    {i j : Nat} (hi : i < ids.length) (hj : j < ids.length)
    (h : ids.getD i 0 = ids.getD j 0) : i = j := by
  rcases Nat.lt_trichotomy i j with hlt | heq | hgt
  · exact absurd h (Nat.ne_of_lt (sorted_getD_lt hs hlt hj))
  · exact heq
  · exact absurd h.symm (Nat.ne_of_lt (sorted_getD_lt hs hgt hi))

theorem binarySearchGo_some {ids : List Nat} {t : Nat} :
    ∀ {fuel lo hi i : Nat}, hi ≤ ids.length →
      binarySearchGo ids t fuel lo hi = some i →
      lo ≤ i ∧ i < hi ∧ ids.getD i 0 = t := by
  intro fuel
  induction fuel with
  | zero => intro lo hi i _ h; simp [binarySearchGo] at h
  | succ fuel ih =>
    intro lo hi i hhi h
    rw [binarySearchGo] at h
    by_cases hlo : lo < hi
    · rw [if_pos hlo] at h
      by_cases h1 : ids.getD ((lo + hi) / 2) 0 < t
      · rw [if_pos h1] at h
        obtain ⟨ha, hb, hc⟩ := ih hhi h
        exact ⟨by omega, hb, hc⟩
      · rw [if_neg h1] at h
        by_cases h2 : t < ids.getD ((lo + hi) / 2) 0
        · rw [if_pos h2] at h
          obtain ⟨ha, hb, hc⟩ := ih (by omega) h
          exact ⟨ha, by omega, hc⟩
        · rw [if_neg h2] at h
          obtain rfl : (lo + hi) / 2 = i := Option.some_injective _ h
          exact ⟨by omega, by omega, by omega⟩
    · rw [if_neg hlo] at h
      exact absurd h (by simp)

theorem binarySearchGo_complete {ids : List Nat} {t : Nat}
    (hs : List.Sorted (· < ·) ids) :
    ∀ {fuel lo hi j : Nat}, hi ≤ ids.length → hi - lo ≤ fuel →
      lo ≤ j → j < hi → ids.getD j 0 = t →
      binarySearchGo ids t fuel lo hi = some j := by
  intro fuel
  induction fuel with
  | zero => intro lo hi j _ hfuel hlo hhi _; omega
  | succ fuel ih =>
    intro lo hi j hhi hfuel hloj hjhi hjt
    have hlo : lo < hi := by omega
    have hmid1 : lo ≤ (lo + hi) / 2 := by omega
    have hmid2 : (lo + hi) / 2 < hi := by omega
    have hmidlen : (lo + hi) / 2 < ids.length := by omega
    have hjlen : j < ids.length := by omega
    rw [binarySearchGo, if_pos hlo]
    by_cases h1 : ids.getD ((lo + hi) / 2) 0 < t
    · rw [if_pos h1]
      have hj : (lo + hi) / 2 < j := by
        rcases Nat.lt_or_ge ((lo + hi) / 2) j with h | h
        · exact h
        · rcases Nat.eq_or_lt_of_le h with rfl | h'
          · omega
          · exact absurd (hjt ▸ sorted_getD_lt hs h' hmidlen) (by omega)
      exact ih hhi (by omega) (by omega) hjhi hjt
    · rw [if_neg h1]
      by_cases h2 : t < ids.getD ((lo + hi) / 2) 0
      · rw [if_pos h2]
        have hj : j < (lo + hi) / 2 := by
          rcases Nat.lt_or_ge j ((lo + hi) / 2) with h | h
          · exact h
          · rcases Nat.eq_or_lt_of_le h with h' | h'
            · rw [← h'] at hjt; omega
            · exact absurd (hjt ▸ sorted_getD_lt hs h' hjlen) (by omega)
        exact ih (by omega) (by omega) hloj hj hjt
      · rw [if_neg h2]
        have hx : ids.getD ((lo + hi) / 2) 0 = t := by omega
        exact congrArg some (sorted_getD_inj hs hmidlen hjlen (hx.trans hjt.symm))

theorem binarySearch_eq_some {ids : List Nat} {t : Nat}
    (hs : List.Sorted (· < ·) ids) {j : Nat}
    (hj : j < ids.length) (hjt : ids.getD j 0 = t) :
    binarySearch ids t = some j :=
  binarySearchGo_complete hs (Nat.le_refl _) (by omega) (Nat.zero_le _) hj hjt

theorem binarySearch_of_some {ids : List Nat} {t i : Nat}
    (h : binarySearch ids t = some i) :
    i < ids.length ∧ ids.getD i 0 = t :=
  ⟨(binarySearchGo_some (Nat.le_refl _) h).2.1,
   (binarySearchGo_some (Nat.le_refl _) h).2.2⟩

theorem binarySearch_none_of_not_mem {ids : List Nat} {t : Nat}
    (h : t ∉ ids) : binarySearch ids t = none := by
  cases heq : binarySearch ids t with
  | none => rfl
  | some i =>
    obtain ⟨hi, hit⟩ := binarySearch_of_some heq
    exact absurd (hit ▸ List.getD_eq_getElem _ _ hi ▸ List.getElem_mem hi) h

instance : IsAntisymm Nat (· < ·) :=
  ⟨fun _ _ h1 h2 => absurd h1 (Nat.lt_asymm h2)⟩

theorem eraseIdx_eq_erase {ids : List Nat} (hnd : ids.Nodup) :
    ∀ {j t : Nat}, j < ids.length → ids.getD j 0 = t →
      ids.eraseIdx j = ids.erase t := by
  induction ids with
  | nil => intro j t hj _; simp at hj
  | cons a tl ih =>
    intro j t hj hjt
    cases j with
    | zero =>
      obtain rfl : a = t := hjt
      simp [List.eraseIdx]
    | succ j =>
      have hjtl : j < tl.length := by simpa using hj
      have hmem : t ∈ tl := by
        have := List.getD_eq_getElem tl 0 hjtl
        simp only [List.getD_cons_succ] at hjt
        exact hjt ▸ this ▸ List.getElem_mem hjtl
      have hat : ¬a = t := fun h => (List.nodup_cons.mp hnd).1 (h ▸ hmem)
      rw [List.eraseIdx_cons_succ, List.erase_cons_tail (by simp [hat]),
        ih (List.nodup_cons.mp hnd).2 hjtl (by simpa using hjt)]

theorem eraseAll_nil (R : List Nat) : eraseAll R [] = R := rfl

theorem eraseAll_cons (R : List Nat) (t : Nat) (L : List Nat) :
    eraseAll R (t :: L) = eraseAll (R.erase t) L := rfl

theorem eraseAll_append (R L₁ L₂ : List Nat) :
    eraseAll R (L₁ ++ L₂) = eraseAll (eraseAll R L₁) L₂ := by
  simp [eraseAll, List.foldl_append]

theorem eraseAll_sublist (R : List Nat) :
    ∀ L : List Nat, List.Sublist (eraseAll R L) R := by
  intro L
  induction L generalizing R with
  | nil => exact List.Sublist.refl R
  | cons t L ih =>
    exact (eraseAll_cons R t L ▸ ih (R.erase t)).trans (List.erase_sublist t R)

theorem eraseAll_sorted {R : List Nat} (hs : List.Sorted (· < ·) R)
    (L : List Nat) : List.Sorted (· < ·) (eraseAll R L) :=
  List.Pairwise.sublist (eraseAll_sublist R L) hs

theorem mem_eraseAll {x : Nat} :
    ∀ {L R : List Nat}, R.Nodup → (x ∈ eraseAll R L ↔ x ∈ R ∧ x ∉ L) := by
  intro L
  induction L with
  | nil => intro R _; simp [eraseAll_nil]
  | cons t L ih =>
    intro R hnd
    rw [eraseAll_cons, ih (List.Nodup.sublist (List.erase_sublist t R) hnd),
      hnd.mem_erase_iff]
    simp only [List.mem_cons]
    constructor
    · rintro ⟨⟨hxt, hxR⟩, hxL⟩
      exact ⟨hxR, by rintro (rfl | h) <;> [exact hxt rfl; exact hxL h]⟩
    · rintro ⟨hxR, hn⟩
      exact ⟨⟨fun h => hn (Or.inl h), hxR⟩, fun h => hn (Or.inr h)⟩

theorem contain_read_of_mem {t : Nat} {R : List Nat}
    (hs : List.Sorted (· < ·) R) (h : t ∈ R) :
    ∃ j, contain (.read t) R = (some (.Mapping j), R.erase t) := by
  obtain ⟨j, hj, hjt⟩ := List.mem_iff_getElem.mp h
  have hD : R.getD j 0 = t := (List.getD_eq_getElem R 0 hj).trans hjt
  refine ⟨j, ?_⟩
  rw [contain, binarySearch_eq_some hs hj hD]
  simp [eraseIdx_eq_erase hs.nodup hj hD]

theorem contain_write_of_mem {t : Nat} {R : List Nat}
    (hs : List.Sorted (· < ·) R) (h : t ∈ R) :
    ∃ j, contain (.write t) R = (some (.Mapping j), R.erase t) := by
  obtain ⟨j, hj, hjt⟩ := List.mem_iff_getElem.mp h
  have hD : R.getD j 0 = t := (List.getD_eq_getElem R 0 hj).trans hjt
  refine ⟨j, ?_⟩
  rw [contain, binarySearch_eq_some hs hj hD]
  simp [eraseIdx_eq_erase hs.nodup hj hD]

theorem contain_read_of_not_mem {t : Nat} {R : List Nat} (h : t ∉ R) :
    contain (.read t) R = (none, R) := by
  rw [contain, binarySearch_none_of_not_mem h]

theorem contain_write_of_not_mem {t : Nat} {R : List Nat} (h : t ∉ R) :
    contain (.write t) R = (none, R) := by
  rw [contain, binarySearch_none_of_not_mem h]

mutual

theorem containSpec (S : Shape) (R : List Nat) (hs : List.Sorted (· < ·) R) :
    ((contain S R).1.isSome = true ↔
      (leaves S).Nodup ∧ ∀ t ∈ leaves S, t ∈ R) ∧
    ((contain S R).1.isSome = true →
      (contain S R).2 = eraseAll R (leaves S)) := by
  cases S with
  | read t =>
    by_cases h : t ∈ R
    · obtain ⟨j, hj⟩ := contain_read_of_mem hs h
      rw [hj]
      exact ⟨by simp [leaves, h], fun _ => by simp [leaves, eraseAll]⟩
    · rw [contain_read_of_not_mem h]
      exact ⟨by simp [leaves, h], by simp⟩
  | write t =>
    by_cases h : t ∈ R
    · obtain ⟨j, hj⟩ := contain_write_of_mem hs h
      rw [hj]
      exact ⟨by simp [leaves, h], fun _ => by simp [leaves, eraseAll]⟩
    · rw [contain_write_of_not_mem h]
      exact ⟨by simp [leaves, h], by simp⟩
  | node cs =>
    have h := containListSpec cs R hs
    cases hc : containList cs R with
    | mk o rest =>
      rw [hc] at h
      cases o with
      | some ms =>
        rw [leaves, contain, hc]
        exact ⟨by simpa using h.1, fun _ => by simpa using h.2 (by simp)⟩
      | none =>
        rw [leaves, contain, hc]
        exact ⟨by simpa using h.1, by simp⟩

theorem containListSpec (cs : ShapeList) (R : List Nat)
    (hs : List.Sorted (· < ·) R) :
    ((containList cs R).1.isSome = true ↔
      (leavesList cs).Nodup ∧ ∀ t ∈ leavesList cs, t ∈ R) ∧
    ((containList cs R).1.isSome = true →
      (containList cs R).2 = eraseAll R (leavesList cs)) := by
  cases cs with
  | nil =>
    rw [leavesList, containList]
    exact ⟨by simp, fun _ => by simp [eraseAll]⟩
  | cons c cs =>
    have hcS := containSpec c R hs
    cases hc : contain c R with
    | mk o rest =>
      rw [hc] at hcS
      cases o with
      | none =>
        rw [leavesList, containList, hc]
        simp only [Option.isSome_none, Bool.false_eq_true, false_iff,
          false_implies, and_true] at hcS ⊢
        intro hcond
        refine hcS ⟨(List.nodup_append.mp hcond.1).1, fun t ht => ?_⟩
        exact hcond.2 t (List.mem_append_left _ ht)
      | some m =>
        simp only [Option.isSome_some, true_iff, true_implies,
          forall_const] at hcS
        obtain ⟨⟨hndc, hmemc⟩, hrest⟩ := hcS
        have hrest' : rest = eraseAll R (leaves c) := hrest
        have hs' : List.Sorted (· < ·) rest := hrest' ▸ eraseAll_sorted hs _
        have hL := containListSpec cs rest hs'
        cases hc2 : containList cs rest with
        | mk o2 rest2 =>
          rw [hc2] at hL
          cases o2 with
          | some ms =>
            simp only [leavesList, containList, hc, hc2]
            simp only [Option.isSome_some, true_iff, true_implies] at hL ⊢
            obtain ⟨⟨hndcs, hmemcs⟩, hrest2⟩ := hL
            constructor
            · constructor
              · refine List.nodup_append.mpr ⟨hndc, hndcs, fun t ht hts => ?_⟩
                have : t ∈ rest := hmemcs t hts
                rw [hrest'] at this
                exact ((mem_eraseAll hs.nodup).mp this).2 ht
              · intro t ht
                rcases List.mem_append.mp ht with h1 | h2
                · exact hmemc t h1
                · have : t ∈ rest := hmemcs t h2
                  rw [hrest'] at this
                  exact ((mem_eraseAll hs.nodup).mp this).1
            · rw [hrest2, hrest', eraseAll_append]
          | none =>
            simp only [leavesList, containList, hc, hc2]
            simp only [Option.isSome_none, Bool.false_eq_true, false_iff,
              false_implies, and_true] at hL ⊢
            intro hcond
            obtain ⟨hndapp, hmemapp⟩ := hcond
            obtain ⟨_, hndcs, hdisj⟩ := List.nodup_append.mp hndapp
            refine hL ⟨hndcs, fun t ht => ?_⟩
            rw [hrest', mem_eraseAll hs.nodup]
            refine ⟨hmemapp t (List.mem_append_right _ ht), fun htc => ?_⟩
            exact hdisj htc ht

end

mutual

theorem contain_consumes :
    ∀ (S : Shape) (R : List Nat) (p : MappingTable) (R' : List Nat),
      contain S R = (some p, R') → R'.length + (leaves S).length = R.length := by
  intro S
  cases S with
  | read t =>
    intro R p R' h
    cases hb : binarySearch R t with
    | none => simp [contain, hb] at h
    | some j =>
      simp only [contain, hb] at h
      injection h with h1 h2
      subst h2
      have hj := (binarySearch_of_some hb).1
      have := List.length_eraseIdx_add_one hj
      simp only [leaves, List.length_singleton]
      omega
  | write t =>
    intro R p R' h
    cases hb : binarySearch R t with
    | none => simp [contain, hb] at h
    | some j =>
      simp only [contain, hb] at h
      injection h with h1 h2
      subst h2
      have hj := (binarySearch_of_some hb).1
      have := List.length_eraseIdx_add_one hj
      simp only [leaves, List.length_singleton]
      omega
  | node cs =>
    intro R p R' h
    cases hc : containList cs R with
    | mk o rest =>
      cases o with
      | none => simp [contain, hc] at h
      | some ms =>
        simp only [contain, hc] at h
        injection h with h1 h2
        subst h2
        rw [leaves]
        exact containList_consumes cs R ms rest hc

theorem containList_consumes :
    ∀ (cs : ShapeList) (R : List Nat) (ms : List MappingTable) (R' : List Nat),
      containList cs R = (some ms, R') → R'.length + (leavesList cs).length = R.length := by
  intro cs
  cases cs with
  | nil =>
    intro R ms R' h
    simp only [containList] at h
    injection h with h1 h2
    simp [leavesList, h2]
  | cons c cs =>
    intro R ms R' h
    cases hc : contain c R with
    | mk o rest =>
      cases o with
      | none => simp [containList, hc] at h
      | some m =>
        cases hc2 : containList cs rest with
        | mk o2 rest2 =>
          cases o2 with
          | none => simp [containList, hc, hc2] at h
          | some ms' =>
            simp only [containList, hc, hc2] at h
            injection h with h1 h2
            subst h2
            have e1 := contain_consumes c R m rest hc
            have e2 := containList_consumes cs rest ms' rest2 hc2
            simp only [leavesList, List.length_append]
            omega

end

mutual

theorem contain_snd_sublist :
    ∀ (S : Shape) (R : List Nat), List.Sublist (contain S R).2 R := by
  intro S
  cases S with
  | read t =>
    intro R
    cases hb : binarySearch R t with
    | none => simp only [contain, hb]; exact List.Sublist.refl R
    | some j => simp only [contain, hb]; exact List.eraseIdx_sublist R j
  | write t =>
    intro R
    cases hb : binarySearch R t with
    | none => simp only [contain, hb]; exact List.Sublist.refl R
    | some j => simp only [contain, hb]; exact List.eraseIdx_sublist R j
  | node cs =>
    intro R
    have h := containList_snd_sublist cs R
    cases hc : containList cs R with
    | mk o rest =>
      rw [hc] at h
      cases o with
      | none => simpa only [contain, hc] using h
      | some ms => simpa only [contain, hc] using h

theorem containList_snd_sublist :
    ∀ (cs : ShapeList) (R : List Nat), List.Sublist (containList cs R).2 R := by
  intro cs
  cases cs with
  | nil => intro R; simp only [containList]; exact List.Sublist.refl R
  | cons c cs =>
    intro R
    have h1 := contain_snd_sublist c R
    cases hc : contain c R with
    | mk o rest =>
      rw [hc] at h1
      cases o with
      | none => simpa only [containList, hc] using h1
      | some m =>
        have h2 := containList_snd_sublist cs rest
        cases hc2 : containList cs rest with
        | mk o2 rest2 =>
          rw [hc2] at h2
          cases o2 with
          | none => simpa only [containList, hc, hc2] using h2.trans h1
          | some ms => simpa only [containList, hc, hc2] using h2.trans h1

end

mutual

theorem contain_iso :
    ∀ (S : Shape) (R : List Nat) (p : MappingTable) (R' : List Nat),
      contain S R = (some p, R') → planIso S p = true := by
  intro S
  cases S with
  | read t =>
    intro R p R' h
    cases hb : binarySearch R t with
    | none => simp [contain, hb] at h
    | some j =>
      simp only [contain, hb] at h
      injection h with h1 h2
      rw [← Option.some_injective _ h1]
      rfl
  | write t =>
    intro R p R' h
    cases hb : binarySearch R t with
    | none => simp [contain, hb] at h
    | some j =>
      simp only [contain, hb] at h
      injection h with h1 h2
      rw [← Option.some_injective _ h1]
      rfl
  | node cs =>
    intro R p R' h
    cases hc : containList cs R with
    | mk o rest =>
      cases o with
      | none => simp [contain, hc] at h
      | some ms =>
        simp only [contain, hc] at h
        injection h with h1 h2
        rw [← Option.some_injective _ h1, planIso]
        exact containList_iso cs R ms rest hc

theorem containList_iso :
    ∀ (cs : ShapeList) (R : List Nat) (ms : List MappingTable) (R' : List Nat),
      containList cs R = (some ms, R') → planIsoList cs ms = true := by
  intro cs
  cases cs with
  | nil =>
    intro R ms R' h
    simp only [containList] at h
    injection h with h1 h2
    rw [← Option.some_injective _ h1]
    rfl
  | cons c cs =>
    intro R ms R' h
    cases hc : contain c R with
    | mk o rest =>
      cases o with
      | none => simp [containList, hc] at h
      | some m =>
        cases hc2 : containList cs rest with
        | mk o2 rest2 =>
          cases o2 with
          | none => simp [containList, hc, hc2] at h
          | some ms' =>
            simp only [containList, hc, hc2] at h
            injection h with h1 h2
            rw [← Option.some_injective _ h1, planIsoList]
            rw [contain_iso c R m rest hc, containList_iso cs rest ms' rest2 hc2]
            rfl

end

mutual

theorem contain_skeleton_congr :
    ∀ (S S' : Shape) (R : List Nat), sameSkeleton S S' = true →
      contain S R = contain S' R := by
  intro S
  cases S with
  | read t =>
    intro S' R h
    cases S' with
    | read u =>
      obtain rfl : t = u := by simpa [sameSkeleton] using h
      rfl
    | write u =>
      obtain rfl : t = u := by simpa [sameSkeleton] using h
      simp only [contain]
    | node ds => simp [sameSkeleton] at h
  | write t =>
    intro S' R h
    cases S' with
    | read u =>
      obtain rfl : t = u := by simpa [sameSkeleton] using h
      simp only [contain]
    | write u =>
      obtain rfl : t = u := by simpa [sameSkeleton] using h
      rfl
    | node ds => simp [sameSkeleton] at h
  | node cs =>
    intro S' R h
    cases S' with
    | read u => simp [sameSkeleton] at h
    | write u => simp [sameSkeleton] at h
    | node ds =>
      rw [sameSkeleton] at h
      simp only [contain, containList_skeleton_congr cs ds R h]

theorem containList_skeleton_congr :
    ∀ (cs ds : ShapeList) (R : List Nat), sameSkeletonList cs ds = true →
      containList cs R = containList ds R := by
  intro cs
  cases cs with
  | nil =>
    intro ds R h
    cases ds with
    | nil => rfl
    | cons d ds => simp [sameSkeletonList] at h
  | cons c cs =>
    intro ds R h
    cases ds with
    | nil => simp [sameSkeletonList] at h
    | cons d ds =>
      rw [sameSkeletonList, Bool.and_eq_true] at h
      have hrec : ∀ R₂ : List Nat, containList cs R₂ = containList ds R₂ :=
        fun R₂ => containList_skeleton_congr cs ds R₂ h.2
      simp only [containList, contain_skeleton_congr c d R h.1, hrec]

end

end Tecs

namespace Trecs

open Tecs (Mode)

theorem runValidationTrace_countP_invoke :
    ∀ (ps : List AccessRecord) (st : SystemState),
      (runValidationTrace ps st).countP isInvokeEv = 0 := by
  intro ps
  induction ps with
  | nil => intro st; rfl
  | cons hd rest ih =>
    intro st
    obtain ⟨t, m⟩ := hd
    rw [runValidationTrace]
    cases hr : record t m st with
    | some st' => simp [List.countP_cons, isInvokeEv, ih st']
    | none => simp [List.countP_cons, isInvokeEv]

theorem runValidationTrace_of_some :
    ∀ (ps : List AccessRecord) (st st' : SystemState),
      runValidation ps st = some st' →
      runValidationTrace ps st = ps.map (fun r => Ev.contribute r.1 r.2) := by
  intro ps
  induction ps with
  | nil => intro st st' _; rfl
  | cons hd rest ih =>
    intro st st' h
    obtain ⟨t, m⟩ := hd
    rw [runValidation] at h
    rw [runValidationTrace]
    cases hr : record t m st with
    | some st1 =>
      rw [hr] at h
      rw [List.map_cons]
      exact congrArg (Ev.contribute t m :: ·) (ih st1 st' h)
    | none => rw [hr] at h; exact absurd h (by simp)

theorem systemRunOnce_countP_invoke (s : SystemVal) :
    (systemRunOnce s).countP isInvokeEv = 1 := rfl

theorem systemRunOnce_countP_contribute (s : SystemVal) :
    (systemRunOnce s).countP isContributeEv = 0 := rfl

theorem runTimes_countP_invoke (s : SystemVal) :
    ∀ n : Nat, (runTimes s n).countP isInvokeEv = n := by
  intro n
  induction n with
  | zero => rfl
  | succ n ih =>
    rw [runTimes, List.countP_append, systemRunOnce_countP_invoke, ih]
    omega

theorem runTimes_countP_contribute (s : SystemVal) :
    ∀ n : Nat, (runTimes s n).countP isContributeEv = 0 := by
  intro n
  induction n with
  | zero => rfl
  | succ n ih =>
    rw [runTimes, List.countP_append, systemRunOnce_countP_contribute, ih]

theorem registerAndRun_eq (ps : List AccessRecord) (n : Nat) :
    registerAndRun ps n =
      if validateRecords ps then runValidationTrace ps ⟨[]⟩ ++ runTimes ⟨ps⟩ n
      else runValidationTrace ps ⟨[]⟩ := by
  rw [registerAndRun, systemNew]
  by_cases h : validateRecords ps <;> simp [h]

theorem runValidation_isSome_iff :
    ∀ (ps A : List AccessRecord),
      (runValidation ps ⟨A⟩).isSome = true ↔
        ((∀ t, (t, Mode.write) ∈ A → ∀ r ∈ ps, r.1 ≠ t) ∧
         (∀ t, (t, Mode.write) ∈ ps →
           (∀ x ∈ A, x.1 ≠ t) ∧ (ps.filter (fun r => r.1 == t)).length = 1)) := by
  intro ps
  induction ps with
  | nil => intro A; simp [runValidation]
  | cons hd rest ih =>
    obtain ⟨u, m⟩ := hd
    intro A
    cases m with
    | read =>
      by_cases hw : (u, Mode.write) ∈ A
      · simp only [runValidation, record, if_pos hw, Option.isSome_none,
          Bool.false_eq_true, false_iff]
        rintro ⟨h1, -⟩
        exact h1 u hw (u, Mode.read) (List.mem_cons_self _ _) rfl
      · simp only [runValidation, record, if_neg hw]
        rw [ih (A ++ [(u, Mode.read)])]
        constructor
        · rintro ⟨L1, L2⟩
          constructor
          · intro t ht r hr
            rcases List.mem_cons.mp hr with rfl | hr'
            · intro heq
              obtain rfl : u = t := heq
              exact hw ht
            · exact L1 t (List.mem_append_left _ ht) r hr'
          · intro t ht
            rcases List.mem_cons.mp ht with habs | ht'
            · exact absurd habs (by simp)
            · obtain ⟨hA, hlen⟩ := L2 t ht'
              have hut : u ≠ t := by
                have := hA (u, Mode.read)
                  (List.mem_append_right _ (List.mem_singleton_self _))
                simpa using this
              refine ⟨fun x hx => hA x (List.mem_append_left _ hx), ?_⟩
              rw [List.filter_cons, if_neg (by simp [hut])]
              exact hlen
        · rintro ⟨R1, R2⟩
          constructor
          · intro t ht r hr
            rcases List.mem_append.mp ht with htA | hts
            · exact R1 t htA r (List.mem_cons_of_mem _ hr)
            · exact absurd (List.mem_singleton.mp hts) (by simp)
          · intro t ht
            obtain ⟨hA, hlen⟩ := R2 t (List.mem_cons_of_mem _ ht)
            have hut : u ≠ t := by
              intro heq
              subst heq
              rw [List.filter_cons, if_pos (by simp)] at hlen
              have hm : (u, Mode.write) ∈ rest.filter (fun r => r.1 == u) :=
                List.mem_filter.mpr ⟨ht, by simp⟩
              have hpos := List.length_pos.mpr (List.ne_nil_of_mem hm)
              simp only [List.length_cons] at hlen
              omega
            refine ⟨?_, ?_⟩
            · intro x hx
              rcases List.mem_append.mp hx with h | h
              · exact hA x h
              · obtain rfl := List.mem_singleton.mp h
                simpa using hut
            · rw [List.filter_cons, if_neg (by simp [hut])] at hlen
              exact hlen
    | write =>
      by_cases hex : ∃ x ∈ A, x.1 = u
      · simp only [runValidation, record, if_pos hex, Option.isSome_none,
          Bool.false_eq_true, false_iff]
        rintro ⟨h1, h2⟩
        obtain ⟨x, hxA, hxu⟩ := hex
        obtain ⟨xt, xm⟩ := x
        have hxu' : xt = u := hxu
        cases xm with
        | write =>
          exact h1 u (hxu' ▸ hxA) (u, Mode.write) (List.mem_cons_self _ _) rfl
        | read =>
          exact (h2 u (List.mem_cons_self _ _)).1 (xt, Mode.read) hxA hxu'
      · simp only [runValidation, record, if_neg hex]
        rw [ih (A ++ [(u, Mode.write)])]
        have hnotA : ∀ x ∈ A, x.1 ≠ u := by
          intro x hx heq
          exact hex ⟨x, hx, heq⟩
        constructor
        · rintro ⟨L1, L2⟩
          constructor
          · intro t ht r hr
            rcases List.mem_cons.mp hr with rfl | hr'
            · intro heq
              obtain rfl : u = t := heq
              exact hnotA (u, Mode.write) ht rfl
            · exact L1 t (List.mem_append_left _ ht) r hr'
          · intro t ht
            rcases List.mem_cons.mp ht with heq | ht'
            · have heq' : t = u := congrArg Prod.fst heq
              subst heq'
              refine ⟨hnotA, ?_⟩
              rw [List.filter_cons, if_pos (by simp)]
              have hnone : ∀ r ∈ rest, r.1 ≠ t :=
                L1 t (List.mem_append_right _ (List.mem_singleton_self _))
              have hemp : rest.filter (fun r => r.1 == t) = [] := by
                rw [List.filter_eq_nil_iff]
                intro a ha
                simp [hnone a ha]
              simp [hemp]
            · obtain ⟨hA, hlen⟩ := L2 t ht'
              have hut : u ≠ t := by
                have := hA (u, Mode.write)
                  (List.mem_append_right _ (List.mem_singleton_self _))
                simpa using this
              refine ⟨fun x hx => hA x (List.mem_append_left _ hx), ?_⟩
              rw [List.filter_cons, if_neg (by simp [hut])]
              exact hlen
        · rintro ⟨R1, R2⟩
          constructor
          · intro t ht r hr
            rcases List.mem_append.mp ht with htA | hts
            · exact R1 t htA r (List.mem_cons_of_mem _ hr)
            · have heq' : t = u := congrArg Prod.fst (List.mem_singleton.mp hts)
              subst heq'
              have h2 := (R2 t (List.mem_cons_self _ _)).2
              rw [List.filter_cons, if_pos (by simp)] at h2
              have hnil : rest.filter (fun x => x.1 == t) = [] := by
                cases hfil : rest.filter (fun x => x.1 == t) with
                | nil => rfl
                | cons a as => rw [hfil] at h2; simp at h2
              intro heq
              have hmem : r ∈ rest.filter (fun x => x.1 == t) :=
                List.mem_filter.mpr ⟨hr, by simp [heq]⟩
              rw [hnil] at hmem
              exact absurd hmem (List.not_mem_nil r)
          · intro t ht
            obtain ⟨hA, hlen⟩ := R2 t (List.mem_cons_of_mem _ ht)
            have hut : u ≠ t := by
              intro heq
              subst heq
              rw [List.filter_cons, if_pos (by simp)] at hlen
              have hm : (u, Mode.write) ∈ rest.filter (fun r => r.1 == u) :=
                List.mem_filter.mpr ⟨ht, by simp⟩
              have hpos := List.length_pos.mpr (List.ne_nil_of_mem hm)
              simp only [List.length_cons] at hlen
              omega
            refine ⟨?_, ?_⟩
            · intro x hx
              rcases List.mem_append.mp hx with h | h
              · exact hA x h
              · obtain rfl := List.mem_singleton.mp h
                simpa using hut
            · rw [List.filter_cons, if_neg (by simp [hut])] at hlen
              exact hlen

theorem validateRecords_iff (ps : List AccessRecord) :
    validateRecords ps = true ↔
      ∀ t, (t, Mode.write) ∈ ps → (ps.filter (fun r => r.1 == t)).length = 1 := by
  rw [validateRecords, innerInit, runValidation_isSome_iff ps []]
  constructor
  · rintro ⟨-, h⟩ t ht
    exact (h t ht).2
  · intro h
    refine ⟨fun t ht => absurd ht (List.not_mem_nil _), fun t ht => ?_⟩
    exact ⟨fun x hx => absurd hx (List.not_mem_nil _), h t ht⟩

theorem validateRecords_iff_writeExclusive (ps : List AccessRecord) :
    validateRecords ps = true ↔ writeExclusiveCond ps := by
  rw [validateRecords_iff]
  constructor
  · intro h t _
    by_cases hw : (t, Mode.write) ∈ ps
    · exact Or.inr (h t hw)
    · refine Or.inl ?_
      rw [List.length_eq_zero, List.filter_eq_nil_iff]
      rintro ⟨a, b⟩ hab hpred
      simp only [Bool.and_eq_true, beq_iff_eq] at hpred
      obtain ⟨rfl, rfl⟩ := hpred
      exact hw hab
  · intro h t hw
    have htm : t ∈ ps.map Prod.fst := List.mem_map.mpr ⟨(t, Mode.write), hw, rfl⟩
    rcases h t htm with h0 | h1
    · exfalso
      have hm : (t, Mode.write) ∈ ps.filter (fun r => r.1 == t && r.2 == Mode.write) :=
        List.mem_filter.mpr ⟨hw, by simp⟩
      have := List.length_pos.mpr (List.ne_nil_of_mem hm)
      omega
    · exact h1

end Trecs

namespace Claims

open Tecs Trecs
open Tecs (Mode)

/-- C1: the claim states that whenever `contain` (resolve) returns a plan for a
row's type-identity list, `build` on that plan and row succeeds, with every
leaf view's underlying type matching the requested type exactly.  The code
refutes this: for the row `[{ty := 0}, {ty := 1}]` and the shape
`(&T0, &T1)`, `contain` records the second leaf's index in the vector
already shrunk by `Vec::remove`, producing the plan `Node [Mapping 0,
Mapping 0]`; `build` then fetches slot 0 (which stores a value of type 0) for
the leaf requesting type 1, the downcast fails, and the `unwrap` panics
(modelled as `none`). -/
theorem c1_stale_slot_after_remove :
    contain (.node (.cons (.read 0) (.cons (.read 1) .nil)))
        (componentsIds [⟨0, 10⟩, ⟨1, 20⟩]) =
      (some (.Node [.Mapping 0, .Mapping 0]), []) ∧
    build (.node (.cons (.read 0) (.cons (.read 1) .nil))) [⟨0, 10⟩, ⟨1, 20⟩]
        (.Node [.Mapping 0, .Mapping 0]) = none :=
  ⟨rfl, rfl⟩

/-- C2: for a sorted duplicate-free row identity list `R`, `contain`
(resolve) returns `some` plan exactly when every requested leaf type of the
shape is present in `R` and no two leaves of the shape request the same
type; in every other case it returns `none`. -/
theorem c2_contain_some_iff (S : Shape) (R : List Nat)
    (hs : List.Sorted (· < ·) R) :
    (contain S R).1.isSome = true ↔
      (leaves S).Nodup ∧ ∀ t ∈ leaves S, t ∈ R :=
  (containSpec S R hs).1

theorem c2_contain_some_iff_witness :
    (contain (.node (.cons (.read 5) (.cons (.write 2) .nil))) [2, 5, 9]).1.isSome
      = true :=
  (c2_contain_some_iff (.node (.cons (.read 5) (.cons (.write 2) .nil))) [2, 5, 9]
    (by decide)).mpr (by decide)

/-- C3 counterexample: read over the accumulated records as a multiset, the
claimed condition rejects `[(T,Read),(T,Read)]` (two records of one type,
not a single Write), yet validation succeeds on it — as the claim's own
example says it must.  So the claimed biconditional is false as stated. -/
theorem c3_two_reads_counterexample :
    validateRecords [(0, Mode.read), (0, Mode.read)] = true ∧
      ¬ claimedAliasCond [(0, Mode.read), (0, Mode.read)] :=
  ⟨rfl, by decide⟩

/-- C3 (amended): Alias Tracker validation succeeds iff every type identity
with a Write record has exactly one record (of any mode) in the scope — any
number of Read records of one type validates; a Write with any other record
(Read or a second Write) of the same type conflicts. -/
theorem c3_validate_iff_write_exclusive (ps : List AccessRecord) :
    validateRecords ps = true ↔ writeExclusiveCond ps :=
  validateRecords_iff_writeExclusive ps

/-- C4: the claim states every suspend-capable (async) system's `run_once`
returns a deferred unit of work that the wrapper awaits to completion.  The
code refutes this for every async system with at least one parameter: the
`impl_async_fnsystem` macro calls the callable, drops the returned future,
and returns `None`, so the wrapper's `unwrap().await` panics (modelled as
`none`); only the hand-written zero-parameter impl returns the deferred
unit, which the wrapper then drives before returning. -/
theorem c4_async_unit_dropped :
    asyncInnerRunOnce ⟨1, [Ev.invoke]⟩ = none ∧
    asyncSystemRunOnce ⟨1, [Ev.invoke]⟩ = none ∧
    asyncSystemRunOnce ⟨0, [Ev.invoke]⟩ = some [Ev.buildArgs, Ev.invoke] :=
  ⟨rfl, rfl, rfl⟩

/-- C5: Alias Tracker contributions happen only during registration
(`System::new` → `init`) — their count in a register-then-run-`n`-times
trace is independent of `n`, and `System::run_once` itself performs none —
and the user callable of a system whose validation fails is never invoked,
while a validated system is invoked once per scheduler call. -/
theorem c5_validation_once_at_registration (ps : List AccessRecord) (n : Nat) :
    (registerAndRun ps n).countP isContributeEv =
      (registerAndRun ps 0).countP isContributeEv ∧
    (systemRunOnce ⟨ps⟩).countP isContributeEv = 0 ∧
    (registerAndRun ps n).countP isInvokeEv =
      (if validateRecords ps then n else 0) := by
  refine ⟨?_, systemRunOnce_countP_contribute _, ?_⟩
  · rw [registerAndRun_eq, registerAndRun_eq]
    by_cases h : validateRecords ps
    · rw [if_pos h, if_pos h, List.countP_append, List.countP_append,
        runTimes_countP_contribute, runTimes_countP_contribute]
    · rw [if_neg h, if_neg h]
  · rw [registerAndRun_eq]
    by_cases h : validateRecords ps
    · rw [if_pos h, if_pos h, List.countP_append,
        runValidationTrace_countP_invoke, runTimes_countP_invoke]
      omega
    · rw [if_neg h, if_neg h, runValidationTrace_countP_invoke]

/-- C6: whenever resolution succeeds, the produced plan is a tree isomorphic
to the requested shape — a `Mapping` leaf per requested component leaf and a
`Node` with exactly one child per tuple element in declared order; when it
fails the result carries no plan at all (`none`), so no partial plan is
observable. -/
theorem c6_plan_isomorphic (S : Shape) (R : List Nat) (p : MappingTable)
    (R' : List Nat) (h : contain S R = (some p, R')) : planIso S p = true :=
  contain_iso S R p R' h

theorem c6_plan_isomorphic_witness :
    planIso (.node (.cons (.read 1) (.cons (.write 0) .nil)))
      (.Node [.Mapping 1, .Mapping 0]) = true :=
  c6_plan_isomorphic (.node (.cons (.read 1) (.cons (.write 0) .nil))) [0, 1]
    (.Node [.Mapping 1, .Mapping 0]) [] rfl

/-- C7: resolution depends only on the row's sorted type-identity set: two
rows with identical identity sets (whatever their stored payloads) yield
syntactically identical resolution results, slot indices included. -/
theorem c7_plan_depends_only_on_ids (S : Shape) (r₁ r₂ : Components)
    (h₁ : List.Sorted (· < ·) (componentsIds r₁))
    (h₂ : List.Sorted (· < ·) (componentsIds r₂))
    (hset : ∀ t, t ∈ componentsIds r₁ ↔ t ∈ componentsIds r₂) :
    contain S (componentsIds r₁) = contain S (componentsIds r₂) := by
  have hperm := (List.perm_ext_iff_of_nodup h₁.nodup h₂.nodup).mpr hset
  rw [List.eq_of_perm_of_sorted hperm h₁ h₂]

theorem c7_plan_depends_only_on_ids_witness :
    contain (.node (.cons (.read 1) .nil)) (componentsIds [⟨0, 10⟩, ⟨1, 20⟩]) =
      contain (.node (.cons (.read 1) .nil)) (componentsIds [⟨0, 77⟩, ⟨1, 99⟩]) :=
  c7_plan_depends_only_on_ids (.node (.cons (.read 1) .nil))
    [⟨0, 10⟩, ⟨1, 20⟩] [⟨0, 77⟩, ⟨1, 99⟩] (by decide) (by decide)
    (fun _ => Iff.rfl)

/-- C8: tuple resolution failure is not atomic with respect to the working
identity set: when an earlier element of the tuple has already matched (and
so removed) at least one identity and a later element fails, the whole
`contain` returns `none` together with the already-shrunk vector — the
removed identities are not restored. -/
theorem c8_failure_keeps_consumed (c : Shape) (cs : ShapeList)
    (R R₁ R₂ : List Nat) (m : MappingTable) (hleaf : leaves c ≠ [])
    (h₁ : contain c R = (some m, R₁))
    (h₂ : containList cs R₁ = (none, R₂)) :
    contain (.node (.cons c cs)) R = (none, R₂) ∧ R₂.length < R.length := by
  constructor
  · simp only [contain, containList, h₁, h₂]
  · have hcons := contain_consumes c R m R₁ h₁
    have hlen : 0 < (leaves c).length := List.length_pos.mpr hleaf
    have hsub : List.Sublist R₂ R₁ := by
      have h' := containList_snd_sublist cs R₁
      rw [h₂] at h'
      exact h'
    have := hsub.length_le
    omega

theorem c8_failure_keeps_consumed_witness :
    contain (.node (.cons (.read 0) (.cons (.read 5) .nil))) [0, 1] =
        (none, [1]) ∧
      ([1] : List Nat).length < ([0, 1] : List Nat).length :=
  c8_failure_keeps_consumed (.read 0) (.cons (.read 5) .nil) [0, 1] [1] [1]
    (.Mapping 0) (by decide) rfl rfl

/-- C9: resolution is insensitive to access mode — the `&T` and `&mut T`
`contain` impls are identical, so replacing any leaf's mode in a shape (any
two shapes with the same skeleton and leaf types) changes neither resolution
success nor the produced plan nor the final state of the working set. -/
theorem c9_mode_insensitive (S S' : Shape) (R : List Nat)
    (h : sameSkeleton S S' = true) : contain S R = contain S' R :=
  contain_skeleton_congr S S' R h

theorem c9_mode_insensitive_witness :
    contain (.node (.cons (.read 3) .nil)) [3, 4] =
      contain (.node (.cons (.write 3) .nil)) [3, 4] :=
  c9_mode_insensitive (.node (.cons (.read 3) .nil))
    (.node (.cons (.write 3) .nil)) [3, 4] (by decide)

/-- C10: a `System` is only produced by `System::new` after the wrapped
callable's `init` has run every parameter's Alias Tracker contribution
against a fresh `SystemState` to completion: any constructed `System`
carries exactly the validated parameter list, validation succeeded, and the
registration trace shows one contribution per parameter, in order. -/
theorem c10_system_new_validates (ps : List AccessRecord) (s : SystemVal)
    (h : (systemNew ps).2 = some s) :
    s.params = ps ∧ validateRecords ps = true ∧
      (systemNew ps).1 = ps.map (fun r => Ev.contribute r.1 r.2) := by
  by_cases hv : validateRecords ps = true
  · simp only [systemNew, hv, if_true] at h ⊢
    injection h with h1
    refine ⟨congrArg SystemVal.params h1.symm, trivial, ?_⟩
    obtain ⟨st', hst⟩ := Option.isSome_iff_exists.mp hv
    exact runValidationTrace_of_some ps ⟨[]⟩ st' hst
  · simp [systemNew, hv] at h

theorem c10_system_new_validates_witness :
    (⟨[(0, Mode.read), (1, Mode.write)]⟩ : SystemVal).params =
        [(0, Mode.read), (1, Mode.write)] ∧
      validateRecords [(0, Mode.read), (1, Mode.write)] = true ∧
      (systemNew [(0, Mode.read), (1, Mode.write)]).1 =
        [(0, Mode.read), (1, Mode.write)].map (fun r => Ev.contribute r.1 r.2) :=
  c10_system_new_validates [(0, Mode.read), (1, Mode.write)]
    ⟨[(0, Mode.read), (1, Mode.write)]⟩ rfl

end Claims
